import Mathlib

/-!
Verification development for the Particle Swarm Optimization repository
(`pso_utils.c`, `optimize_using_omp.c`).

Modelling conventions (shallow embedding):
* C `float` values are modelled as `ℚ`: comparisons and arithmetic are exact,
  which is the standard abstraction for the control-flow/ordering properties
  proved here.  `INFINITY` is never materialised: the running local best of the
  reduction is an `Option ℕ` whose `none` state plays the role of the
  `local_fitness[tid] = INFINITY, local_g[tid]` (indeterminate) initial state;
  a finite fitness compares `<` against `INFINITY` as `true`, which is exactly
  the `none => some i` branch of `localStep`.
* `rand_r` draws are modelled by explicit streams of already-normalised values
  `u : ℕ → ℚ` (the value `rand_r(&seed)/RAND_MAX`).  In the C code the seeds
  feeding `rand_r` are indeterminate: `optimize_using_omp` declares `seed`
  OpenMP-`private` (hence uninitialised in each thread), and `pso_init_omp`
  mutates one *shared* `seed` variable from all threads (a data race); the base
  value is `time(NULL)`.  Quantifying over the streams covers every behaviour
  those indeterminate seeds can produce.
* The OpenMP `#pragma omp for` partition of particle indices over the
  `num_threads` workers is an explicit parameter `parts : List (List ℕ)`
  (worker `t` scans index list `parts[t]` in order).  Theorems quantify over
  the partition, covering every schedule.
* The swarm is a `List Particle`; `swarm->num_particles` is its length.
  Out-of-range accesses (undefined behaviour in C) are modelled with `getD`
  defaults and never arise under the theorems' hypotheses.
-/

/-- One `particle_t`: position, velocity, personal best position, best
fitness attained, and the index `g` of the swarm's best particle. -/
structure Particle where
  x : List ℚ
  v : List ℚ
  pbest : List ℚ
  fitness : ℚ
  g : ℤ
deriving DecidableEq, Repr

/-- Default particle used for (never-taken under our hypotheses) out-of-range
list accesses. -/
def dfltParticle : Particle := ⟨[], [], [], 0, -1⟩

/-- The five objective functions of `pso_utils.c`.  Four of them use
transcendental library functions (`sin`, `cos`, `exp`, `sqrt`), so they are
abstract parameters of the development; `booth` is polynomial and is also
given concretely below (`boothQ`). -/
structure Objectives where
  booth : List ℚ → ℚ
  rastrigin : List ℚ → ℚ
  holder_table : List ℚ → ℚ
  eggholder : List ℚ → ℚ
  schwefel : List ℚ → ℚ

/-- `pso_eval_booth`: `(x + 2y - 7)^2 + (2x + y - 5)^2` (exact over `ℚ`). -/
def boothQ (xs : List ℚ) : ℚ :=
  (xs.getD 0 0 + 2 * xs.getD 1 0 - 7) ^ 2 + (2 * xs.getD 0 0 + xs.getD 1 0 - 5) ^ 2

/-- A concrete `Objectives` record used for closed witness evaluations: `booth`
is the real Booth polynomial, the transcendental objectives are irrelevant
stand-ins (the witnesses never select them). -/
def objC : Objectives :=
  ⟨boothQ, fun _ => 0, fun _ => 0, fun _ => 0, fun _ => 0⟩

/-- `pso_eval_fitness(function, particle, &fitness)`: the chain of `strcmp`
dispatches of `pso_utils.c:108-136`.  Returns the pair
(return status, value of `*fitness` after the call); `fitness` is the value
the output variable held before the call (it is written only on success). -/
def pso_eval_fitness (O : Objectives) (function : String) (xs : List ℚ)
    (fitness : ℚ) : ℤ × ℚ :=
  if function = "booth" then (0, O.booth xs)
  else if function = "rastrigin" then (0, O.rastrigin xs)
  else if function = "holder_table" then (0, O.holder_table xs)
  else if function = "eggholder" then (0, O.eggholder xs)
  else if function = "schwefel" then (0, O.schwefel xs)
  else (-1, fitness)

/-- `uniform_omp(min, max, seed)` where `u` is the normalised draw
`(float)rand_r(seed)/(float)RAND_MAX`. -/
def uniform_omp (lo hi u : ℚ) : ℚ := lo + u * (hi - lo)

/-- One step of a worker's local scan in `pso_get_best_fitness_omp`
(`pso_utils.c:172-178`): `if (particle->fitness < local_fitness[tid])` where
`local_fitness[tid]` starts at `INFINITY` (state `none`, against which every
finite fitness compares `<`). -/
def localStep (f : ℕ → ℚ) (acc : Option ℕ) (i : ℕ) : Option ℕ :=
  match acc with
  | none => some i
  | some g => if f i < f g then some i else some g

/-- A worker's local best index over its partition (first-encountered wins:
only a strictly smaller fitness replaces the running best).  `none` means the
worker never wrote `local_g[tid]` (empty partition: indeterminate in C). -/
def localBest (f : ℕ → ℚ) (part : List ℕ) : Option ℕ :=
  part.foldl (localStep f) none

/-- The helper `min(float *input, int length)` of `pso_utils.c:198-206`:
`res = input[0]` then a scan replacing `res` whenever `res > input[i]`.
`min []` would read `input[0]` out of bounds in C; the `0` default is never
used under the theorems' hypotheses. -/
def minC : List ℚ → ℚ
  | [] => 0
  | a :: l => List.foldl (fun r v => if r > v then v else r) a (a :: l)

/-- The merge scan of `pso_get_best_fitness_omp` (`pso_utils.c:181-194`):
`fitness = min(local_fitness, num_threads); global_g = local_g[0];` then every
worker `i` with `local_fitness[i] == fitness` overwrites `global_g` (so the
last worker attaining the minimum wins).  `locals` is the list of per-worker
local best indices; the `[]` case corresponds to `num_threads = 0` (for which
the C arrays have size 0 and `global_g` stays `-1`). -/
def mergeScan (f : ℕ → ℚ) (locals : List ℕ) : ℤ :=
  match locals with
  | [] => -1
  | g0 :: _ =>
    let fit := minC (locals.map f)
    List.foldl (fun gg g => if f g = fit then (g : ℤ) else gg) (g0 : ℤ) locals

/-- `pso_get_best_fitness_omp(swarm, num_threads)` over a fitness map `f` and
the per-worker index partition `parts`.  The result is `none` exactly when some
worker's partition is empty, in which case the C code reads the indeterminate
`local_g` entry (only reachable outside the claims' `1 ≤ P ≤ N` range). -/
def pso_get_best_fitness_omp (f : ℕ → ℚ) (parts : List (List ℕ)) : Option ℤ :=
  (parts.mapM (localBest f)).map (mergeScan f)

/-- The claim's description of a worker's local result: the *first* particle
of the partition attaining the partition's minimum fitness (an equal value
does not replace the running local best). -/
def specLocalBest (f : ℕ → ℚ) (part : List ℕ) : Option ℕ :=
  part.find? fun i => part.all fun j => decide (f i ≤ f j)

/-- The claim's description of the whole reduction: per-partition first
minimum, then — scanning the local results in worker order — the *last* worker
whose local best fitness equals the global minimum provides the answer. -/
def specReduce (f : ℕ → ℚ) (parts : List (List ℕ)) : Option ℤ :=
  let locals := (parts.map (specLocalBest f)).reduceOption
  match (locals.map f).min? with
  | none => none
  | some gm => (locals.reverse.find? fun g => decide (f g = gm)).map fun g => (g : ℤ)

/-- Fitness of particle `i` of the swarm (`swarm->particle[i].fitness`). -/
def fitnessAt (s : List Particle) (i : ℕ) : ℚ := (s.getD i dfltParticle).fitness

/-- Per-dimension state update of `optimize_using_omp.c:50-65` for dimension
values `x = x[j]`, `v = v[j]`, `pb = pbest[j]`, `gx = gbest->x[j]`, drawing
from the stream `u` starting at position `k`.  Returns the new position, the
new velocity and the next unconsumed stream position.  The velocity is
*resampled* (one extra draw) when it leaves `[-|xmax-xmin|, |xmax-xmin|]`; the
position is hard-clamped by the two `if`s. -/
def updDim (w c1 c2 xmin xmax x v pb gx : ℚ) (u : ℕ → ℚ) (k : ℕ) : ℚ × ℚ × ℕ :=
  let vmax := |xmax - xmin|
  let r1 := u k
  let r2 := u (k + 1)
  let v1 := w * v + c1 * r1 * (pb - x) + c2 * r2 * (gx - x)
  let vk : ℚ × ℕ :=
    if v1 < -vmax ∨ v1 > vmax then (uniform_omp (-vmax) vmax (u (k + 2)), k + 3)
    else (v1, k + 2)
  let x1 := x + vk.1
  let x2 := if x1 > xmax then xmax else x1
  let x3 := if x2 < xmin then xmin else x2
  (x3, vk.1, vk.2)

/-- The `for (j = 0; j < particle->dim; j++)` loop over the position, velocity,
personal-best and global-best vectors, threading the draw-stream position. -/
def updDims (w c1 c2 xmin xmax : ℚ) (u : ℕ → ℚ) :
    List ℚ → List ℚ → List ℚ → List ℚ → ℕ → List ℚ × List ℚ
  | x :: xs, v :: vs, pb :: pbs, gx :: gxs, k =>
    let r := updDim w c1 c2 xmin xmax x v pb gx u k
    let rest := updDims w c1 c2 xmin xmax u xs vs pbs gxs r.2.2
    (r.1 :: rest.1, r.2.1 :: rest.2)
  | _, _, _, _, _ => ([], [])

/-- One particle's update step (`optimize_using_omp.c:45-77`): update every
dimension, evaluate the fitness at the new position (the call's status is
ignored by the code; the `0` junk third argument models the indeterminate
`curr_fitness` local, which is only surfaced on the unknown-function path that
`pso_init_omp` has already excluded), and overwrite `fitness`/`pbest` exactly
when the new fitness is strictly smaller. -/
def updateParticle (O : Objectives) (function : String) (w c1 c2 xmin xmax : ℚ)
    (gx : List ℚ) (u : ℕ → ℚ) (p : Particle) : Particle :=
  let xv := updDims w c1 c2 xmin xmax u p.x p.v p.pbest gx 0
  let curr := (pso_eval_fitness O function xv.1 0).2
  if curr < p.fitness then
    { x := xv.1, v := xv.2, pbest := xv.1, fitness := curr, g := p.g }
  else
    { x := xv.1, v := xv.2, pbest := p.pbest, fitness := p.fitness, g := p.g }

/-- The parallel update phase over all particles.  Each particle reads the
global-best particle's position through its own `g` field; this models the
intended barrier semantics in which every read observes the phase-start
snapshot (the C code actually has a read/write race on the best particle's
position during this phase, see the determinism analysis). -/
def updatePhase (O : Objectives) (function : String) (w c1 c2 xmin xmax : ℚ)
    (u : ℕ → ℕ → ℚ) (s : List Particle) : List Particle :=
  (List.range s.length).map fun i =>
    let p := s.getD i dfltParticle
    updateParticle O function w c1 c2 xmin xmax
      (s.getD p.g.toNat dfltParticle).x (u i) p

/-- Broadcast of the reduction result into every particle's `g` field. -/
def broadcastG (g : ℤ) (s : List Particle) : List Particle :=
  s.map fun p => { p with g := g }

/-- One iteration of the `while (iter < max_iter)` loop: update phase, then
the reduction, then the broadcast.  Returns the new swarm and the shared `g`. -/
def pso_iter (O : Objectives) (function : String) (w c1 c2 xmin xmax : ℚ)
    (parts : List (List ℕ)) (u : ℕ → ℕ → ℚ) (s : List Particle) :
    List Particle × ℤ :=
  let s1 := updatePhase O function w c1 c2 xmin xmax u s
  let g := (pso_get_best_fitness_omp (fitnessAt s1) parts).getD (-1)
  (broadcastG g s1, g)

/-- State after `t` iterations of the main loop, starting from swarm `s0` with
`g = -1` (`optimize_using_omp.c:38`).  `uss t i` is the draw stream particle
`i` consumes during iteration `t`. -/
def pso_state (O : Objectives) (function : String) (w c1 c2 xmin xmax : ℚ)
    (parts : List (List ℕ)) (uss : ℕ → ℕ → ℕ → ℚ) (s0 : List Particle) :
    ℕ → List Particle × ℤ
  | 0 => (s0, -1)
  | t + 1 =>
    pso_iter O function w c1 c2 xmin xmax parts (uss t)
      (pso_state O function w c1 c2 xmin xmax parts uss s0 t).1

/-- Initialisation of one particle (`pso_utils.c:340-368`): `dim` uniform
position draws in `[xmin, xmax]`, `dim` uniform velocity draws in
`[-|xmax-xmin|, |xmax-xmin|]`, `pbest = x`, fitness evaluated at `x`
(`none` models the `exit(EXIT_FAILURE)` on an unknown function name; the `0`
junk argument is the indeterminate `fitness` local, surfaced on no path),
`g = -1`. -/
def initParticle (O : Objectives) (function : String) (dim : ℕ)
    (xmin xmax : ℚ) (u : ℕ → ℚ) : Option Particle :=
  let xs := (List.range dim).map fun j => uniform_omp xmin xmax (u j)
  let vs := (List.range dim).map fun j =>
    uniform_omp (-|xmax - xmin|) |xmax - xmin| (u (dim + j))
  let sf := pso_eval_fitness O function xs 0
  if sf.1 < 0 then none
  else some { x := xs, v := vs, pbest := xs, fitness := sf.2, g := -1 }

/-- `pso_init_omp` (`pso_utils.c:318-383`): build all `N` particles (aborting
the run if the objective name is unknown), then run the parallel reduction
once and broadcast its result into every particle's `g`. -/
def pso_init_omp (O : Objectives) (function : String) (dim N : ℕ)
    (xmin xmax : ℚ) (parts : List (List ℕ)) (us : ℕ → ℕ → ℚ) :
    Option (List Particle) :=
  match (List.range N).mapM (fun i => initParticle O function dim xmin xmax (us i)) with
  | none => none
  | some ps =>
    let g := (pso_get_best_fitness_omp (fitnessAt ps) parts).getD (-1)
    some (broadcastG g ps)

/-- `optimize_using_omp`: initialise (aborting on failure), then run
`max_iter` iterations of the loop with the fixed coefficients
`w = 0.79, c1 = c2 = 1.49`, starting from `g = -1`.  The C function returns
only the final `g` and frees the swarm; the model keeps the final swarm as
well so that trajectory properties can be stated. -/
def optimize_using_omp (O : Objectives) (function : String) (dim N : ℕ)
    (xmin xmax : ℚ) (max_iter : ℤ) (parts : List (List ℕ))
    (uss : ℕ → ℕ → ℕ → ℚ) (usinit : ℕ → ℕ → ℚ) :
    Option (List Particle × ℤ) :=
  match pso_init_omp O function dim N xmin xmax parts usinit with
  | none => none
  | some s0 =>
    some (pso_state O function (79 / 100) (149 / 100) (149 / 100) xmin xmax
      parts uss s0 max_iter.toNat)

/-- Bound invariant of the spec: every particle has every position coordinate
in `[xmin, xmax]` and every velocity coordinate in
`[-|xmax-xmin|, |xmax-xmin|]`. -/
def InBounds (xmin xmax : ℚ) (s : List Particle) : Prop :=
  ∀ p ∈ s, (∀ a ∈ p.x, xmin ≤ a ∧ a ≤ xmax) ∧
    (∀ b ∈ p.v, -|xmax - xmin| ≤ b ∧ b ≤ |xmax - xmin|)

/-! ## Helper lemmas -/

theorem uniform_omp_bounds (lo hi u : ℚ) (hlohi : lo ≤ hi) (h0 : 0 ≤ u)
    (h1 : u ≤ 1) : lo ≤ uniform_omp lo hi u ∧ uniform_omp lo hi u ≤ hi := by
  unfold uniform_omp
  have hspan : (0 : ℚ) ≤ hi - lo := by linarith
  have hlow : 0 ≤ u * (hi - lo) := mul_nonneg h0 hspan
  have hhigh : u * (hi - lo) ≤ 1 * (hi - lo) := mul_le_mul_of_nonneg_right h1 hspan
  constructor <;> linarith

theorem pso_eval_fitness_known (O : Objectives) (fn : String) (xs : List ℚ)
    (old : ℚ)
    (h : fn ∈ ["booth", "rastrigin", "holder_table", "eggholder", "schwefel"]) :
    (pso_eval_fitness O fn xs old).1 = 0 := by
  unfold pso_eval_fitness
  fin_cases h <;> simp

theorem pso_eval_fitness_unknown (O : Objectives) (fn : String) (xs : List ℚ)
    (old : ℚ)
    (h : fn ∉ ["booth", "rastrigin", "holder_table", "eggholder", "schwefel"]) :
    pso_eval_fitness O fn xs old = (-1, old) := by
  unfold pso_eval_fitness
  simp only [List.mem_cons, List.mem_singleton] at h
  push_neg at h
  obtain ⟨h1, h2, h3, h4, h5⟩ := h
  simp [h1, h2, h3, h4, h5]

theorem clamp_eq (xmin xmax x1 : ℚ) (h : xmin ≤ xmax) :
    (if (if x1 > xmax then xmax else x1) < xmin then xmin
      else if x1 > xmax then xmax else x1) = max xmin (min xmax x1) := by
  rcases lt_or_le xmax x1 with h1 | h1
  · rw [if_pos h1, if_neg (not_lt.mpr h), min_eq_left h1.le, max_eq_right h]
  · rw [if_neg (not_lt.mpr h1), min_eq_right h1]
    rcases lt_or_le x1 xmin with h2 | h2
    · rw [if_pos h2, max_eq_left h2.le]
    · rw [if_neg (not_lt.mpr h2), max_eq_right h2]

theorem updDim_v_pos (w c1 c2 xmin xmax x v pb gx : ℚ) (u : ℕ → ℚ) (k : ℕ)
    (hc : w * v + c1 * u k * (pb - x) + c2 * u (k + 1) * (gx - x) < -|xmax - xmin| ∨
      w * v + c1 * u k * (pb - x) + c2 * u (k + 1) * (gx - x) > |xmax - xmin|) :
    (updDim w c1 c2 xmin xmax x v pb gx u k).2.1 =
        uniform_omp (-|xmax - xmin|) |xmax - xmin| (u (k + 2)) ∧
      (updDim w c1 c2 xmin xmax x v pb gx u k).2.2 = k + 3 := by
  simp only [updDim, if_pos hc]
  constructor <;> trivial

theorem updDim_v_neg (w c1 c2 xmin xmax x v pb gx : ℚ) (u : ℕ → ℚ) (k : ℕ)
    (hc : ¬(w * v + c1 * u k * (pb - x) + c2 * u (k + 1) * (gx - x) < -|xmax - xmin| ∨
      w * v + c1 * u k * (pb - x) + c2 * u (k + 1) * (gx - x) > |xmax - xmin|)) :
    (updDim w c1 c2 xmin xmax x v pb gx u k).2.1 =
        w * v + c1 * u k * (pb - x) + c2 * u (k + 1) * (gx - x) ∧
      (updDim w c1 c2 xmin xmax x v pb gx u k).2.2 = k + 2 := by
  simp only [updDim, if_neg hc]
  constructor <;> trivial

theorem updDim_x_clamp (w c1 c2 xmin xmax x v pb gx : ℚ) (u : ℕ → ℚ) (k : ℕ)
    (hxx : xmin ≤ xmax) :
    (updDim w c1 c2 xmin xmax x v pb gx u k).1 =
      max xmin (min xmax (x + (updDim w c1 c2 xmin xmax x v pb gx u k).2.1)) := by
  by_cases hc : w * v + c1 * u k * (pb - x) + c2 * u (k + 1) * (gx - x) < -|xmax - xmin| ∨
      w * v + c1 * u k * (pb - x) + c2 * u (k + 1) * (gx - x) > |xmax - xmin|
  · simp only [updDim, if_pos hc]
    exact clamp_eq xmin xmax _ hxx
  · simp only [updDim, if_neg hc]
    exact clamp_eq xmin xmax _ hxx

/-! ## C3 -/

/-- C3: in the per-dimension update, a newly computed velocity outside
`[-|xmax-xmin|, |xmax-xmin|]` is replaced by a fresh uniform sample from that
range (consuming one extra draw of the stream), not clipped to the boundary;
an in-range velocity is kept unchanged; afterwards the position is incremented
by the (possibly resampled) velocity and hard-clamped into `[xmin, xmax]`. -/
theorem velocity_resample_position_clamp
    (w c1 c2 xmin xmax x v pb gx : ℚ) (u : ℕ → ℚ) (k : ℕ)
    (hxx : xmin ≤ xmax) :
    ((w * v + c1 * u k * (pb - x) + c2 * u (k + 1) * (gx - x) < -|xmax - xmin| ∨
        w * v + c1 * u k * (pb - x) + c2 * u (k + 1) * (gx - x) > |xmax - xmin|) →
      (updDim w c1 c2 xmin xmax x v pb gx u k).2.1 =
          uniform_omp (-|xmax - xmin|) |xmax - xmin| (u (k + 2)) ∧
        (updDim w c1 c2 xmin xmax x v pb gx u k).2.2 = k + 3) ∧
    (¬(w * v + c1 * u k * (pb - x) + c2 * u (k + 1) * (gx - x) < -|xmax - xmin| ∨
        w * v + c1 * u k * (pb - x) + c2 * u (k + 1) * (gx - x) > |xmax - xmin|) →
      (updDim w c1 c2 xmin xmax x v pb gx u k).2.1 =
          w * v + c1 * u k * (pb - x) + c2 * u (k + 1) * (gx - x) ∧
        (updDim w c1 c2 xmin xmax x v pb gx u k).2.2 = k + 2) ∧
    (updDim w c1 c2 xmin xmax x v pb gx u k).1 =
      max xmin (min xmax (x + (updDim w c1 c2 xmin xmax x v pb gx u k).2.1)) := by
  by_cases hc : w * v + c1 * u k * (pb - x) + c2 * u (k + 1) * (gx - x) < -|xmax - xmin| ∨
      w * v + c1 * u k * (pb - x) + c2 * u (k + 1) * (gx - x) > |xmax - xmin|
  · exact ⟨fun _ => updDim_v_pos w c1 c2 xmin xmax x v pb gx u k hc,
      fun h => absurd hc h,
      updDim_x_clamp w c1 c2 xmin xmax x v pb gx u k hxx⟩
  · exact ⟨fun h => absurd h hc,
      fun _ => updDim_v_neg w c1 c2 xmin xmax x v pb gx u k hc,
      updDim_x_clamp w c1 c2 xmin xmax x v pb gx u k hxx⟩

/-- Witness for C3 at a concrete out-of-range input. -/
theorem velocity_resample_position_clamp_witness :
    (updDim 1 1 1 0 1 0 5 0 0 (fun _ => 1 / 2) 0).2.1 =
        uniform_omp (-|(1 : ℚ) - 0|) |(1 : ℚ) - 0| ((1 : ℚ) / 2) ∧
      (updDim 1 1 1 0 1 0 5 0 0 (fun _ => 1 / 2) 0).2.2 = 3 :=
  (velocity_resample_position_clamp 1 1 1 0 1 0 5 0 0 (fun _ => 1 / 2) 0
    (by norm_num)).1 (by norm_num)

/-! ## C8 -/

/-- C8: `pso_eval_fitness` succeeds (status 0, score written) exactly for the
five recognised function names, and for every other name it returns `-1` with
the output variable (and hence the particle, which it never writes) left
unchanged; on each recognised name the written score is the corresponding
evaluator applied to the particle's position. -/
theorem eval_fitness_dispatch (O : Objectives) (fn : String) (xs : List ℚ)
    (old : ℚ) :
    ((pso_eval_fitness O fn xs old).1 = 0 ↔
      fn ∈ ["booth", "rastrigin", "holder_table", "eggholder", "schwefel"]) ∧
    (fn ∉ ["booth", "rastrigin", "holder_table", "eggholder", "schwefel"] →
      pso_eval_fitness O fn xs old = (-1, old)) ∧
    pso_eval_fitness O "booth" xs old = (0, O.booth xs) ∧
    pso_eval_fitness O "rastrigin" xs old = (0, O.rastrigin xs) ∧
    pso_eval_fitness O "holder_table" xs old = (0, O.holder_table xs) ∧
    pso_eval_fitness O "eggholder" xs old = (0, O.eggholder xs) ∧
    pso_eval_fitness O "schwefel" xs old = (0, O.schwefel xs) := by
  refine ⟨⟨fun h => ?_, fun h => pso_eval_fitness_known O fn xs old h⟩,
    fun h => pso_eval_fitness_unknown O fn xs old h, ?_, ?_, ?_, ?_, ?_⟩
  · by_contra hmem
    rw [pso_eval_fitness_unknown O fn xs old hmem] at h
    exact absurd h (by norm_num)
  all_goals simp [pso_eval_fitness]

/-- Witness for C8's conditional parts at concrete inputs. -/
theorem eval_fitness_dispatch_witness :
    pso_eval_fitness objC "unknown_name" [] 0 = (-1, 0) ∧
      (pso_eval_fitness objC "schwefel" [] 0).1 = 0 :=
  ⟨(eval_fitness_dispatch objC "unknown_name" [] 0).2.1 (by decide),
    (eval_fitness_dispatch objC "schwefel" [] 0).1.mpr (by decide)⟩

/-! ## C9 -/

/-- C9: for every `min ≤ max` and every normalised draw
`u = rand_r(seed)/RAND_MAX ∈ [0, 1]` (which holds for every seed, since
`rand_r` returns a value in `[0, RAND_MAX]`), `uniform_omp` returns a value in
`[min, max]`. -/
theorem uniform_omp_range (lo hi u : ℚ) (hlohi : lo ≤ hi) (h0 : 0 ≤ u)
    (h1 : u ≤ 1) : lo ≤ uniform_omp lo hi u ∧ uniform_omp lo hi u ≤ hi :=
  uniform_omp_bounds lo hi u hlohi h0 h1

/-- Witness for C9 at a concrete input. -/
theorem uniform_omp_range_witness :
    -10 ≤ uniform_omp (-10) 10 (3 / 4) ∧ uniform_omp (-10) 10 (3 / 4) ≤ 10 :=
  uniform_omp_range (-10) 10 (3 / 4) (by norm_num) (by norm_num) (by norm_num)

/-! ## C10 -/

/-- C10: whenever initialisation succeeds and `max_iter ≤ 0`, the main loop
body never runs — the final swarm is the initial swarm — and the function
returns `g = -1` (the local `g` initialised at `optimize_using_omp.c:38`),
not the initial global-best index computed by `pso_init_omp`. -/
theorem max_iter_nonpos_returns_neg_one (O : Objectives) (fn : String)
    (dim N : ℕ) (xmin xmax : ℚ) (max_iter : ℤ) (parts : List (List ℕ))
    (uss : ℕ → ℕ → ℕ → ℚ) (usinit : ℕ → ℕ → ℚ) (s0 : List Particle)
    (hinit : pso_init_omp O fn dim N xmin xmax parts usinit = some s0)
    (hmi : max_iter ≤ 0) :
    optimize_using_omp O fn dim N xmin xmax max_iter parts uss usinit =
      some (s0, -1) := by
  unfold optimize_using_omp
  rw [hinit, Int.toNat_of_nonpos hmi]
  rfl

/-- Witness for C10 at a concrete configuration with `max_iter = -3`. -/
theorem max_iter_nonpos_returns_neg_one_witness :
    optimize_using_omp objC "booth" 2 1 0 10 (-3) [[0]] (fun _ _ _ => 1 / 2)
        (fun _ _ => 1 / 2) =
      some ([⟨[5, 5], [0, 0], [5, 5], 164, 0⟩], -1) :=
  max_iter_nonpos_returns_neg_one objC "booth" 2 1 0 10 (-3) [[0]]
    (fun _ _ _ => 1 / 2) (fun _ _ => 1 / 2) [⟨[5, 5], [0, 0], [5, 5], 164, 0⟩]
    (by norm_num [pso_init_omp, initParticle, pso_eval_fitness, uniform_omp,
      objC, boothQ, List.range_succ, pso_get_best_fitness_omp, localBest,
      localStep, mergeScan, minC, fitnessAt, broadcastG, dfltParticle,
      List.mapM.loop, Option.map, Option.getD])
    (by decide)

/-! ## Option-mapM helper lemmas -/

theorem mapM_option_none {α β : Type} (f : α → Option β) {a : α}
    (l : List α) (ha : a ∈ l) (hfa : f a = none) : l.mapM f = none := by
  induction l with
  | nil => cases ha
  | cons b t ih =>
    rw [List.mapM_cons]
    rcases List.mem_cons.mp ha with rfl | hat
    · rw [hfa]; rfl
    · cases hfb : f b
      · rfl
      · simp only [Option.bind_eq_bind, Option.some_bind, ih hat,
          Option.none_bind]

theorem mapM_option_some_of_forall {α β : Type} (f : α → Option β)
    (l : List α) (h : ∀ a ∈ l, ∃ b, f a = some b) :
    ∃ bs, l.mapM f = some bs := by
  induction l with
  | nil => exact ⟨[], rfl⟩
  | cons a t ih =>
    obtain ⟨b, hb⟩ := h a (List.mem_cons_self a t)
    obtain ⟨bs, hbs⟩ := ih fun x hx => h x (List.mem_cons_of_mem a hx)
    exact ⟨b :: bs, by rw [List.mapM_cons, hb, hbs]; rfl⟩

theorem mapM_option_forall2 {α β : Type} (f : α → Option β) :
    ∀ (l : List α) (bs : List β), l.mapM f = some bs →
      List.Forall₂ (fun a b => f a = some b) l bs := by
  intro l
  induction l with
  | nil =>
    intro bs h
    rw [List.mapM_nil] at h
    cases h
    exact List.Forall₂.nil
  | cons a t ih =>
    intro bs h
    rw [List.mapM_cons] at h
    cases hfa : f a with
    | none => rw [hfa] at h; cases h
    | some b =>
      rw [hfa] at h
      cases hmt : t.mapM f with
      | none => rw [hmt] at h; cases h
      | some bs' =>
        rw [hmt] at h
        simp only [Option.bind_eq_bind, Option.some_bind, Option.pure_def,
          Option.some.injEq] at h
        subst h
        exact List.Forall₂.cons hfa (ih bs' hmt)

theorem forall2_mem_right {α β : Type} {R : α → β → Prop} :
    ∀ {l₁ : List α} {l₂ : List β}, List.Forall₂ R l₁ l₂ →
      ∀ {b}, b ∈ l₂ → ∃ a ∈ l₁, R a b := by
  intro l₁ l₂ h
  induction h with
  | nil => intro b hb; cases hb
  | @cons a b t₁ t₂ hab _ ih =>
    intro c hc
    rcases List.mem_cons.mp hc with rfl | hct
    · exact ⟨a, List.mem_cons_self a t₁, hab⟩
    · obtain ⟨a', ha', hr⟩ := ih hct
      exact ⟨a', List.mem_cons_of_mem a ha', hr⟩

theorem forall2_mem_left {α β : Type} {R : α → β → Prop} :
    ∀ {l₁ : List α} {l₂ : List β}, List.Forall₂ R l₁ l₂ →
      ∀ {a}, a ∈ l₁ → ∃ b ∈ l₂, R a b := by
  intro l₁ l₂ h
  induction h with
  | nil => intro a ha; cases ha
  | @cons a b t₁ t₂ hab _ ih =>
    intro c hc
    rcases List.mem_cons.mp hc with rfl | hct
    · exact ⟨b, List.mem_cons_self b t₂, hab⟩
    · obtain ⟨b', hb', hr⟩ := ih hct
      exact ⟨b', List.mem_cons_of_mem b hb', hr⟩

/-! ## C5 -/

theorem initParticle_isSome (O : Objectives) (fn : String) (dim : ℕ)
    (xmin xmax : ℚ) (u : ℕ → ℚ)
    (h : fn ∈ ["booth", "rastrigin", "holder_table", "eggholder", "schwefel"]) :
    ∃ p, initParticle O fn dim xmin xmax u = some p := by
  unfold initParticle
  rw [if_neg]
  · exact ⟨_, rfl⟩
  · rw [pso_eval_fitness_known O fn _ 0 h]
    decide

theorem initParticle_none (O : Objectives) (fn : String) (dim : ℕ)
    (xmin xmax : ℚ) (u : ℕ → ℚ)
    (h : fn ∉ ["booth", "rastrigin", "holder_table", "eggholder", "schwefel"]) :
    initParticle O fn dim xmin xmax u = none := by
  unfold initParticle
  simp only [pso_eval_fitness_unknown O fn _ 0 h]
  norm_num

/-- C5 counterexample: the configuration `xmin = 1 ≥ 0 = xmax` (a
`ConfigurationError` per the claim) is *not* detected: `pso_init_omp` runs to
completion and returns a fully constructed swarm instead of aborting with
nothing constructed. -/
theorem config_error_not_detected :
    pso_init_omp objC "booth" 2 1 1 0 [[0]] (fun _ _ => 1 / 2) =
      some [⟨[1 / 2, 1 / 2], [0, 0], [1 / 2, 1 / 2], 85 / 2, 0⟩] := by
  norm_num [pso_init_omp, initParticle, pso_eval_fitness, uniform_omp, objC,
    boothQ, List.range_succ, pso_get_best_fitness_omp, localBest, localStep,
    mergeScan, minC, fitnessAt, broadcastG, dfltParticle, List.mapM.loop,
    Option.map, Option.getD]

/-- C5 amended: the only configuration error `pso_init_omp` detects is an
unknown objective identifier, and only when `N ≥ 1` (for `N = 0` the check is
never reached); the check happens during per-particle initialisation, not
before particle state is created.  Non-positive `dim`/`N`/`P` and
`xmin ≥ xmax` are not validated: for every recognised objective name,
initialisation completes and returns a swarm whatever those parameters are. -/
theorem init_detects_only_unknown_function (O : Objectives) (fn : String)
    (dim N : ℕ) (xmin xmax : ℚ) (parts : List (List ℕ)) (us : ℕ → ℕ → ℚ) :
    (fn ∈ ["booth", "rastrigin", "holder_table", "eggholder", "schwefel"] →
      ∃ s, pso_init_omp O fn dim N xmin xmax parts us = some s) ∧
    (fn ∉ ["booth", "rastrigin", "holder_table", "eggholder", "schwefel"] →
      1 ≤ N → pso_init_omp O fn dim N xmin xmax parts us = none) := by
  constructor
  · intro h
    obtain ⟨ps, hps⟩ := mapM_option_some_of_forall
      (fun i => initParticle O fn dim xmin xmax (us i)) (List.range N)
      (fun i _ => initParticle_isSome O fn dim xmin xmax (us i) h)
    exact ⟨_, by rw [pso_init_omp, hps]⟩
  · intro h hN
    have h0 : (0 : ℕ) ∈ List.range N := List.mem_range.mpr hN
    have hm := mapM_option_none
      (fun i => initParticle O fn dim xmin xmax (us i)) (List.range N) h0
      (initParticle_none O fn dim xmin xmax (us 0) h)
    rw [pso_init_omp, hm]

/-- Witness for the amended C5: a recognised name with `N = 0`, `dim = 0` and
`xmin > xmax` still initialises; an unknown name aborts. -/
theorem init_detects_only_unknown_function_witness :
    (∃ s, pso_init_omp objC "booth" 0 0 1 0 [[0]] (fun _ _ => 1 / 2) = some s) ∧
      pso_init_omp objC "bogus" 2 1 1 0 [[0]] (fun _ _ => 1 / 2) = none :=
  ⟨(init_detects_only_unknown_function objC "booth" 0 0 1 0 [[0]]
      (fun _ _ => 1 / 2)).1 (by decide),
    (init_detects_only_unknown_function objC "bogus" 2 1 1 0 [[0]]
      (fun _ _ => 1 / 2)).2 (by decide) (by decide)⟩

/-! ## Reduction lemmas -/

theorem foldl_localStep_some (f : ℕ → ℚ) (part : List ℕ) : ∀ a : ℕ,
    ∃ g, List.foldl (localStep f) (some a) part = some g ∧ (g = a ∨ g ∈ part) ∧
      f g ≤ f a ∧ ∀ j ∈ part, f g ≤ f j := by
  induction part with
  | nil => exact fun a => ⟨a, rfl, Or.inl rfl, le_refl _, by simp⟩
  | cons b t ih =>
    intro a
    rw [List.foldl_cons]
    by_cases hba : f b < f a
    · have hstep : localStep f (some a) b = some b := by simp [localStep, hba]
      rw [hstep]
      obtain ⟨g, hg, hmem, hle, hall⟩ := ih b
      refine ⟨g, hg, ?_, le_trans hle hba.le, ?_⟩
      · rcases hmem with rfl | h
        · exact Or.inr (List.mem_cons_self g t)
        · exact Or.inr (List.mem_cons_of_mem b h)
      · intro j hj
        rcases List.mem_cons.mp hj with rfl | hjt
        · exact hle
        · exact hall j hjt
    · have hstep : localStep f (some a) b = some a := by simp [localStep, hba]
      rw [hstep]
      obtain ⟨g, hg, hmem, hle, hall⟩ := ih a
      refine ⟨g, hg, ?_, hle, ?_⟩
      · rcases hmem with rfl | h
        · exact Or.inl rfl
        · exact Or.inr (List.mem_cons_of_mem b h)
      · intro j hj
        rcases List.mem_cons.mp hj with rfl | hjt
        · exact le_trans hle (not_lt.mp hba)
        · exact hall j hjt

theorem localBest_some (f : ℕ → ℚ) (part : List ℕ) (hne : part ≠ []) :
    ∃ g, localBest f part = some g ∧ g ∈ part ∧ ∀ j ∈ part, f g ≤ f j := by
  cases part with
  | nil => cases hne rfl
  | cons a t =>
    unfold localBest
    rw [List.foldl_cons]
    have hstep : localStep f none a = some a := rfl
    rw [hstep]
    obtain ⟨g, hg, hmem, hle, hall⟩ := foldl_localStep_some f t a
    refine ⟨g, hg, ?_, ?_⟩
    · rcases hmem with rfl | h
      · exact List.mem_cons_self g t
      · exact List.mem_cons_of_mem a h
    · intro j hj
      rcases List.mem_cons.mp hj with rfl | hjt
      · exact hle
      · exact hall j hjt

theorem localBest_none_iff (f : ℕ → ℚ) (part : List ℕ) :
    localBest f part = none ↔ part = [] := by
  constructor
  · intro h
    by_contra hne
    obtain ⟨g, hg, _, _⟩ := localBest_some f part hne
    rw [h] at hg
    cases hg
  · intro h
    subst h
    rfl

theorem foldl_minstep (l : List ℚ) : ∀ a : ℚ,
    List.foldl (fun r v => if r > v then v else r) a l ∈ a :: l ∧
      ∀ y ∈ a :: l, List.foldl (fun r v => if r > v then v else r) a l ≤ y := by
  induction l with
  | nil => exact fun a => ⟨List.mem_cons_self a [], by simp⟩
  | cons b t ih =>
    intro a
    rw [List.foldl_cons]
    by_cases hab : a > b
    · rw [if_pos hab]
      obtain ⟨hmem, hall⟩ := ih b
      constructor
      · exact List.mem_cons_of_mem a hmem
      · intro y hy
        rcases List.mem_cons.mp hy with rfl | hyt
        · exact le_trans (hall b (List.mem_cons_self b t)) hab.le
        · exact hall y hyt
    · rw [if_neg hab]
      obtain ⟨hmem, hall⟩ := ih a
      constructor
      · rcases List.mem_cons.mp hmem with h | h
        · exact List.mem_cons.mpr (Or.inl h)
        · exact List.mem_cons_of_mem a (List.mem_cons_of_mem b h)
      · intro y hy
        rcases List.mem_cons.mp hy with rfl | hyt
        · exact hall y (List.mem_cons_self y t)
        · rcases List.mem_cons.mp hyt with rfl | hyt'
          · exact le_trans (hall a (List.mem_cons_self a t)) (not_lt.mp hab)
          · exact hall y (List.mem_cons_of_mem a hyt')

theorem minC_spec (l : List ℚ) (hne : l ≠ []) :
    minC l ∈ l ∧ ∀ y ∈ l, minC l ≤ y := by
  cases l with
  | nil => cases hne rfl
  | cons a t =>
    have h : minC (a :: t) =
        List.foldl (fun r v => if r > v then v else r) a t := by
      simp [minC]
    rw [h]
    exact foldl_minstep t a

theorem find?_append_some {α : Type} (q : α → Bool) (l₁ l₂ : List α) (g : α)
    (h : l₁.find? q = some g) : (l₁ ++ l₂).find? q = some g := by
  induction l₁ with
  | nil => cases h
  | cons a t ih =>
    by_cases hqa : q a
    · rw [List.find?_cons_of_pos t hqa] at h
      rw [List.cons_append, List.find?_cons_of_pos _ hqa]
      exact h
    · rw [List.find?_cons_of_neg t hqa] at h
      rw [List.cons_append, List.find?_cons_of_neg _ hqa]
      exact ih h

theorem find?_append_none {α : Type} (q : α → Bool) (l₁ l₂ : List α)
    (h : l₁.find? q = none) : (l₁ ++ l₂).find? q = l₂.find? q := by
  induction l₁ with
  | nil => rfl
  | cons a t ih =>
    by_cases hqa : q a
    · rw [List.find?_cons_of_pos t hqa] at h
      cases h
    · rw [List.find?_cons_of_neg t hqa] at h
      rw [List.cons_append, List.find?_cons_of_neg _ hqa]
      exact ih h

theorem foldl_overwrite {α : Type} (p : α → Prop) [DecidablePred p]
    (fx : α → ℤ) (l : List α) : ∀ init : ℤ,
    List.foldl (fun gg g => if p g then fx g else gg) init l =
      match l.reverse.find? (fun g => decide (p g)) with
      | some g => fx g
      | none => init := by
  induction l with
  | nil => exact fun init => rfl
  | cons a t ih =>
    intro init
    rw [List.foldl_cons, ih]
    rw [List.reverse_cons]
    cases hft : t.reverse.find? (fun g => decide (p g)) with
    | some g => rw [find?_append_some _ _ [a] g hft]
    | none =>
      rw [find?_append_none _ _ [a] hft]
      by_cases hpa : p a
      · simp [List.find?, hpa]
      · simp [List.find?, hpa]

theorem mergeScan_eq (f : ℕ → ℚ) (locals : List ℕ) (hne : locals ≠ []) :
    ∃ g : ℕ, g ∈ locals ∧ f g = minC (locals.map f) ∧
      mergeScan f locals = (g : ℤ) ∧
      locals.reverse.find? (fun x => decide (f x = minC (locals.map f))) =
        some g := by
  cases locals with
  | nil => cases hne rfl
  | cons g0 rest =>
    have hmapne : (g0 :: rest).map f ≠ [] := by simp
    obtain ⟨hmem, hall⟩ := minC_spec ((g0 :: rest).map f) hmapne
    obtain ⟨g1, hg1mem, hg1⟩ := List.mem_map.mp hmem
    have hex : ∃ x, x ∈ (g0 :: rest).reverse ∧
        (fun g => decide (f g = minC ((g0 :: rest).map f))) x = true :=
      ⟨g1, List.mem_reverse.mpr hg1mem, by simp [hg1]⟩
    obtain ⟨g2, hg2⟩ := Option.isSome_iff_exists.mp (List.find?_isSome.mpr hex)
    have hg2mem : g2 ∈ (g0 :: rest).reverse := List.mem_of_find?_eq_some hg2
    have hg2eq : f g2 = minC ((g0 :: rest).map f) := by
      have := List.find?_some hg2
      simpa using this
    refine ⟨g2, List.mem_reverse.mp hg2mem, hg2eq, ?_, hg2⟩
    show mergeScan f (g0 :: rest) = (g2 : ℤ)
    simp only [mergeScan]
    rw [foldl_overwrite (fun g => f g = minC ((g0 :: rest).map f))
      (fun g => (g : ℤ)) (g0 :: rest) (g0 : ℤ), hg2]

theorem reducer_attains_min (f : ℕ → ℚ) (parts : List (List ℕ))
    (hP : parts ≠ []) (hne : ∀ p ∈ parts, p ≠ []) :
    ∃ g : ℕ, pso_get_best_fitness_omp f parts = some (g : ℤ) ∧
      g ∈ parts.join ∧ ∀ j ∈ parts.join, f g ≤ f j := by
  obtain ⟨L, hL⟩ := mapM_option_some_of_forall (localBest f) parts
    (fun part hpart => (localBest_some f part (hne part hpart)).imp
      fun g hg => hg.1)
  have hF2 := mapM_option_forall2 (localBest f) parts L hL
  have hLne : L ≠ [] := by
    intro h
    have hlen := hF2.length_eq
    rw [h, List.length_nil, List.length_eq_zero] at hlen
    exact hP hlen
  obtain ⟨g, hgL, hgmin, hms, -⟩ := mergeScan_eq f L hLne
  have hmapne : L.map f ≠ [] := by
    intro h
    rw [List.map_eq_nil] at h
    exact hLne h
  obtain ⟨part, hpart, hpg⟩ := forall2_mem_right hF2 hgL
  obtain ⟨g', hg', hmem', hall'⟩ := localBest_some f part (hne part hpart)
  have hgg' : g' = g := Option.some.inj (hg'.symm.trans hpg)
  rw [hgg'] at hmem'
  refine ⟨g, ?_, List.mem_join.mpr ⟨part, hpart, hmem'⟩, ?_⟩
  · unfold pso_get_best_fitness_omp
    rw [hL]
    simp [hms]
  · intro j hj
    obtain ⟨pj, hpj, hjpj⟩ := List.mem_join.mp hj
    obtain ⟨gp, hgpL, hgp⟩ := forall2_mem_left hF2 hpj
    obtain ⟨gp', hgp', hgpmem', hgpall'⟩ := localBest_some f pj (hne pj hpj)
    have hgpgp' : gp' = gp := Option.some.inj (hgp'.symm.trans hgp)
    rw [hgpgp'] at hgpall'
    have h1 : minC (L.map f) ≤ f gp :=
      (minC_spec (L.map f) hmapne).2 (f gp) (List.mem_map_of_mem f hgpL)
    exact le_trans (hgmin.trans_le h1) (hgpall' j hjpj)

/-! ## C1 -/

/-- C1: for every swarm of `N` finite-fitness particles (finiteness is
implicit in the `ℚ` model) and every worker count `P` with `1 ≤ P ≤ N` — so
every worker's partition of `0..N-1` is nonempty — the index returned by
`pso_get_best_fitness_omp` references a particle whose fitness is the minimum
fitness over all `N` particles. -/
theorem reducer_returns_min_fitness (f : ℕ → ℚ) (N P : ℕ)
    (parts : List (List ℕ)) (hlen : parts.length = P) (hP1 : 1 ≤ P)
    (hPN : P ≤ N) (hne : ∀ p ∈ parts, p ≠ [])
    (hcov : parts.join.Perm (List.range N)) :
    ∃ g : ℕ, pso_get_best_fitness_omp f parts = some (g : ℤ) ∧ g < N ∧
      ∀ i, i < N → f g ≤ f i := by
  have hP : parts ≠ [] := by
    intro h
    rw [h, List.length_nil] at hlen
    omega
  obtain ⟨g, hg, hmem, hmin⟩ := reducer_attains_min f parts hP hne
  refine ⟨g, hg, ?_, ?_⟩
  · exact List.mem_range.mp (hcov.mem_iff.mp hmem)
  · intro i hi
    exact hmin i (hcov.mem_iff.mpr (List.mem_range.mpr hi))

/-- Witness for C1: `N = 3`, `P = 2`, fitness values `[2, 1, 1]` with
duplicate minima split across the two partitions. -/
theorem reducer_returns_min_fitness_witness :
    ∃ g : ℕ,
      pso_get_best_fitness_omp (fun i => ([2, 1, 1].getD i 0 : ℚ)) [[0, 1], [2]] =
          some (g : ℤ) ∧
        g < 3 ∧ ∀ i, i < 3 → (fun i => ([2, 1, 1].getD i 0 : ℚ)) g ≤
          (fun i => ([2, 1, 1].getD i 0 : ℚ)) i :=
  reducer_returns_min_fitness (fun i => ([2, 1, 1].getD i 0 : ℚ)) 3 2
    [[0, 1], [2]] rfl (by decide) (by decide)
    (by intro p hp; fin_cases hp <;> decide) (by decide)

/-! ## C2: the code reduction equals the spec's tie-break description -/

theorem find?_cons_pos {α : Type} (p : α → Bool) (a : α) (l : List α)
    (h : p a = true) : (a :: l).find? p = some a :=
  List.find?_cons_of_pos l h

theorem find?_cons_neg {α : Type} (p : α → Bool) (a : α) (l : List α)
    (h : ¬p a = true) : (a :: l).find? p = l.find? p :=
  List.find?_cons_of_neg l h

theorem find?_congr {α : Type} (l : List α) (p q : α → Bool)
    (h : ∀ x ∈ l, p x = q x) : l.find? p = l.find? q := by
  induction l with
  | nil => rfl
  | cons a t ih =>
    have ha := h a (List.mem_cons_self a t)
    by_cases hpa : p a = true
    · rw [List.find?_cons_of_pos t hpa, List.find?_cons_of_pos t
        (ha.symm.trans hpa)]
    · rw [List.find?_cons_of_neg t hpa, List.find?_cons_of_neg t
        (fun h' => hpa (ha.trans h'))]
      exact ih fun x hx => h x (List.mem_cons_of_mem a hx)

theorem foldl_localStep_eq_find (f : ℕ → ℚ) (t : List ℕ) : ∀ a : ℕ,
    List.foldl (localStep f) (some a) t =
      (a :: t).find? fun i => (a :: t).all fun j => decide (f i ≤ f j) := by
  induction t with
  | nil =>
    intro a
    simp [List.find?]
  | cons b t ih =>
    intro a
    rw [List.foldl_cons]
    rcases lt_or_le (f b) (f a) with hba | hba
    · have hstep : localStep f (some a) b = some b := by simp [localStep, hba]
      rw [hstep, ih b]
      have hafail : ¬(((a :: b :: t).all fun j => decide (f a ≤ f j)) = true) := by
        simp only [List.all_cons, Bool.and_eq_true, decide_eq_true_eq]
        rintro ⟨-, hab, -⟩
        exact absurd hab (not_le.mpr hba)
      rw [find?_cons_neg (fun i => (a :: b :: t).all fun j => decide (f i ≤ f j))
        a (b :: t) hafail]
      refine find?_congr (b :: t) _ _ ?_
      intro x hx
      by_cases hxb : f x ≤ f b
      · have hxa : f x ≤ f a := hxb.trans hba.le
        simp [List.all_cons, hxb, hxa]
      · simp [List.all_cons, hxb]
    · have hstep : localStep f (some a) b = some a := by
        simp [localStep, not_lt.mpr hba]
      rw [hstep, ih a]
      have hcong : ∀ x, ((a :: t).all fun j => decide (f x ≤ f j)) =
          ((a :: b :: t).all fun j => decide (f x ≤ f j)) := by
        intro x
        by_cases hxa : f x ≤ f a
        · simp [List.all_cons, hxa, hxa.trans hba]
        · simp [List.all_cons, hxa]
      by_cases hqa : ((a :: t).all fun j => decide (f a ≤ f j)) = true
      · rw [find?_cons_pos (fun i => (a :: t).all fun j => decide (f i ≤ f j))
          a t hqa,
          find?_cons_pos (fun i => (a :: b :: t).all fun j => decide (f i ≤ f j))
          a (b :: t) ((hcong a).symm.trans hqa)]
      · rw [find?_cons_neg (fun i => (a :: t).all fun j => decide (f i ≤ f j))
          a t hqa,
          find?_cons_neg (fun i => (a :: b :: t).all fun j => decide (f i ≤ f j))
          a (b :: t) (fun h => hqa ((hcong a).trans h))]
        have hpabtb : ¬(((a :: b :: t).all fun j => decide (f b ≤ f j)) = true) := by
          simp only [List.all_cons, Bool.and_eq_true, decide_eq_true_eq]
          rintro ⟨hbax, -, hbt⟩
          apply hqa
          simp only [List.all_cons, Bool.and_eq_true, decide_eq_true_eq]
          refine ⟨le_refl _, ?_⟩
          rw [List.all_eq_true] at hbt ⊢
          intro j hj
          have hj' := hbt j hj
          simp only [decide_eq_true_eq] at hj' ⊢
          exact hba.trans hj'
        rw [find?_cons_neg (fun i => (a :: b :: t).all fun j => decide (f i ≤ f j))
          b t hpabtb]
        exact find?_congr t _ _ fun x _ => hcong x

theorem localBest_eq_specLocalBest (f : ℕ → ℚ) (part : List ℕ) :
    localBest f part = specLocalBest f part := by
  cases part with
  | nil => rfl
  | cons a t =>
    unfold localBest specLocalBest
    rw [List.foldl_cons]
    have hstep : localStep f none a = some a := rfl
    rw [hstep]
    exact foldl_localStep_eq_find f t a

theorem forall2_map_eq_map_some {α β : Type} {F : α → Option β} :
    ∀ {l : List α} {bs : List β},
      List.Forall₂ (fun a b => F a = some b) l bs → l.map F = bs.map some := by
  intro l bs h
  induction h with
  | nil => rfl
  | cons hab _ ih => simp [hab, ih]

theorem reduceOption_map_some {α : Type} (bs : List α) :
    (bs.map some).reduceOption = bs := by
  induction bs with
  | nil => rfl
  | cons b t ih => simp [List.reduceOption_cons_of_some, ih]

theorem min?_eq_minC (l : List ℚ) (hne : l ≠ []) : l.min? = some (minC l) := by
  obtain ⟨hmem, hall⟩ := minC_spec l hne
  cases hm : l.min? with
  | none =>
    rw [List.min?_eq_none_iff] at hm
    exact absurd hm hne
  | some m =>
    have hmmem : m ∈ l := List.min?_mem (fun a b => min_choice a b) hm
    have hmle : ∀ b ∈ l, m ≤ b := fun b hb =>
      ((List.le_min?_iff (fun _ _ _ => le_min_iff) hm).mp (le_refl m)) b hb
    rw [le_antisymm (hall m hmmem) (hmle _ hmem)]

/-- C2: for every fitness array and every family of nonempty worker
partitions, the code's reduction result equals the spec's deterministic
description: within each partition the *first* particle attaining the
partition minimum (strict `<`, equal values do not replace), then — scanning
the per-worker results in worker-id order — the *last* worker whose local best
fitness equals the global minimum provides the final index. -/
theorem reducer_matches_tie_break_spec (f : ℕ → ℚ) (parts : List (List ℕ))
    (hP : parts ≠ []) (hne : ∀ p ∈ parts, p ≠ []) :
    pso_get_best_fitness_omp f parts = specReduce f parts := by
  obtain ⟨L, hL⟩ := mapM_option_some_of_forall (localBest f) parts
    (fun part hpart => (localBest_some f part (hne part hpart)).imp
      fun g hg => hg.1)
  have hF2 := mapM_option_forall2 (localBest f) parts L hL
  have hLne : L ≠ [] := by
    intro h
    have hlen := hF2.length_eq
    rw [h, List.length_nil, List.length_eq_zero] at hlen
    exact hP hlen
  have hmapne : L.map f ≠ [] := by
    intro h
    rw [List.map_eq_nil] at h
    exact hLne h
  have hmapspec : parts.map (specLocalBest f) = L.map some := by
    rw [← forall2_map_eq_map_some hF2]
    exact List.map_congr_left fun part _ =>
      (localBest_eq_specLocalBest f part).symm
  obtain ⟨g, hgL, hgmin, hms, hfind⟩ := mergeScan_eq f L hLne
  have hcode : pso_get_best_fitness_omp f parts = some (g : ℤ) := by
    unfold pso_get_best_fitness_omp
    rw [hL]
    simp [hms]
  have hspec : specReduce f parts = some (g : ℤ) := by
    simp only [specReduce]
    rw [hmapspec, reduceOption_map_some, min?_eq_minC (L.map f) hmapne]
    dsimp only
    rw [hfind]
    rfl
  rw [hcode, hspec]

/-- Witness for C2: fitness values `[5, 1, 1, 7]`, partitions
`[[0, 1], [2, 3]]` — duplicate minima in different partitions. -/
theorem reducer_matches_tie_break_spec_witness :
    pso_get_best_fitness_omp (fun i => ([5, 1, 1, 7].getD i 0 : ℚ))
        [[0, 1], [2, 3]] =
      specReduce (fun i => ([5, 1, 1, 7].getD i 0 : ℚ)) [[0, 1], [2, 3]] :=
  reducer_matches_tie_break_spec (fun i => ([5, 1, 1, 7].getD i 0 : ℚ))
    [[0, 1], [2, 3]] (by decide) (by intro p hp; fin_cases hp <;> decide)

/-! ## Bound invariants (C4) -/

theorem updDim_bounds (w c1 c2 xmin xmax x v pb gx : ℚ) (u : ℕ → ℚ) (k : ℕ)
    (hxx : xmin ≤ xmax) (hu : ∀ n, 0 ≤ u n ∧ u n ≤ 1) :
    (xmin ≤ (updDim w c1 c2 xmin xmax x v pb gx u k).1 ∧
      (updDim w c1 c2 xmin xmax x v pb gx u k).1 ≤ xmax) ∧
    (-|xmax - xmin| ≤ (updDim w c1 c2 xmin xmax x v pb gx u k).2.1 ∧
      (updDim w c1 c2 xmin xmax x v pb gx u k).2.1 ≤ |xmax - xmin|) := by
  have habs : -|xmax - xmin| ≤ |xmax - xmin| :=
    le_trans (neg_nonpos.mpr (abs_nonneg _)) (abs_nonneg _)
  constructor
  · rw [updDim_x_clamp w c1 c2 xmin xmax x v pb gx u k hxx]
    exact ⟨le_max_left _ _, max_le hxx (min_le_left _ _)⟩
  · by_cases hc : w * v + c1 * u k * (pb - x) + c2 * u (k + 1) * (gx - x) <
        -|xmax - xmin| ∨
      w * v + c1 * u k * (pb - x) + c2 * u (k + 1) * (gx - x) > |xmax - xmin|
    · obtain ⟨hv, -⟩ := updDim_v_pos w c1 c2 xmin xmax x v pb gx u k hc
      rw [hv]
      exact uniform_omp_bounds (-|xmax - xmin|) |xmax - xmin| (u (k + 2)) habs
        (hu (k + 2)).1 (hu (k + 2)).2
    · obtain ⟨hv, -⟩ := updDim_v_neg w c1 c2 xmin xmax x v pb gx u k hc
      rw [hv]
      push_neg at hc
      exact hc

theorem updDims_bounds (w c1 c2 xmin xmax : ℚ) (u : ℕ → ℚ)
    (hxx : xmin ≤ xmax) (hu : ∀ n, 0 ≤ u n ∧ u n ≤ 1) :
    ∀ (xs vs pbs gxs : List ℚ) (k : ℕ),
      (∀ a ∈ (updDims w c1 c2 xmin xmax u xs vs pbs gxs k).1,
        xmin ≤ a ∧ a ≤ xmax) ∧
      (∀ b ∈ (updDims w c1 c2 xmin xmax u xs vs pbs gxs k).2,
        -|xmax - xmin| ≤ b ∧ b ≤ |xmax - xmin|) := by
  intro xs
  induction xs with
  | nil =>
    intro vs pbs gxs k
    constructor <;> intro a ha <;> simp [updDims] at ha
  | cons x xs ih =>
    intro vs pbs gxs k
    cases vs with
    | nil => constructor <;> intro a ha <;> simp [updDims] at ha
    | cons v vs =>
      cases pbs with
      | nil => constructor <;> intro a ha <;> simp [updDims] at ha
      | cons pb pbs =>
        cases gxs with
        | nil => constructor <;> intro a ha <;> simp [updDims] at ha
        | cons gx gxs =>
          obtain ⟨hx1, hv1⟩ := updDim_bounds w c1 c2 xmin xmax x v pb gx u k
            hxx hu
          obtain ⟨ihx, ihv⟩ := ih vs pbs gxs
            (updDim w c1 c2 xmin xmax x v pb gx u k).2.2
          constructor
          · intro a ha
            simp only [updDims] at ha
            rcases List.mem_cons.mp ha with rfl | hat
            · exact hx1
            · exact ihx a hat
          · intro b hb
            simp only [updDims] at hb
            rcases List.mem_cons.mp hb with rfl | hbt
            · exact hv1
            · exact ihv b hbt

theorem updateParticle_bounds (O : Objectives) (fn : String)
    (w c1 c2 xmin xmax : ℚ) (gx : List ℚ) (u : ℕ → ℚ) (p : Particle)
    (hxx : xmin ≤ xmax) (hu : ∀ n, 0 ≤ u n ∧ u n ≤ 1) :
    (∀ a ∈ (updateParticle O fn w c1 c2 xmin xmax gx u p).x,
      xmin ≤ a ∧ a ≤ xmax) ∧
    (∀ b ∈ (updateParticle O fn w c1 c2 xmin xmax gx u p).v,
      -|xmax - xmin| ≤ b ∧ b ≤ |xmax - xmin|) := by
  obtain ⟨hx, hv⟩ := updDims_bounds w c1 c2 xmin xmax u hxx hu p.x p.v p.pbest
    gx 0
  simp only [updateParticle]
  by_cases hc : (pso_eval_fitness O fn
      (updDims w c1 c2 xmin xmax u p.x p.v p.pbest gx 0).1 0).2 < p.fitness
  · rw [if_pos hc]
    exact ⟨hx, hv⟩
  · rw [if_neg hc]
    exact ⟨hx, hv⟩

theorem updatePhase_InBounds (O : Objectives) (fn : String)
    (w c1 c2 xmin xmax : ℚ) (u : ℕ → ℕ → ℚ) (s : List Particle)
    (hxx : xmin ≤ xmax) (hu : ∀ i n, 0 ≤ u i n ∧ u i n ≤ 1) :
    InBounds xmin xmax (updatePhase O fn w c1 c2 xmin xmax u s) := by
  intro p hp
  unfold updatePhase at hp
  obtain ⟨i, hi, hpi⟩ := List.mem_map.mp hp
  subst hpi
  exact updateParticle_bounds O fn w c1 c2 xmin xmax _ (u i)
    (s.getD i dfltParticle) hxx (hu i)

theorem broadcastG_InBounds (xmin xmax : ℚ) (g : ℤ) (s : List Particle)
    (h : InBounds xmin xmax s) : InBounds xmin xmax (broadcastG g s) := by
  intro p hp
  obtain ⟨q, hq, hqp⟩ := List.mem_map.mp hp
  subst hqp
  exact h q hq

theorem initParticle_bounds (O : Objectives) (fn : String) (dim : ℕ)
    (xmin xmax : ℚ) (u : ℕ → ℚ) (p : Particle)
    (hxx : xmin ≤ xmax) (hu : ∀ n, 0 ≤ u n ∧ u n ≤ 1)
    (hp : initParticle O fn dim xmin xmax u = some p) :
    (∀ a ∈ p.x, xmin ≤ a ∧ a ≤ xmax) ∧
    (∀ b ∈ p.v, -|xmax - xmin| ≤ b ∧ b ≤ |xmax - xmin|) := by
  have habs : -|xmax - xmin| ≤ |xmax - xmin| :=
    le_trans (neg_nonpos.mpr (abs_nonneg _)) (abs_nonneg _)
  simp only [initParticle] at hp
  by_cases hc : (pso_eval_fitness O fn
      (List.map (fun j => uniform_omp xmin xmax (u j)) (List.range dim)) 0).1 < 0
  · rw [if_pos hc] at hp
    cases hp
  · rw [if_neg hc] at hp
    have hpeq := (Option.some.inj hp).symm
    subst hpeq
    constructor
    · intro a ha
      obtain ⟨j, hj, hja⟩ := List.mem_map.mp ha
      subst hja
      exact uniform_omp_bounds xmin xmax (u j) hxx (hu j).1 (hu j).2
    · intro b hb
      obtain ⟨j, hj, hjb⟩ := List.mem_map.mp hb
      subst hjb
      exact uniform_omp_bounds (-|xmax - xmin|) |xmax - xmin| (u (dim + j))
        habs (hu (dim + j)).1 (hu (dim + j)).2

theorem pso_init_omp_InBounds (O : Objectives) (fn : String) (dim N : ℕ)
    (xmin xmax : ℚ) (parts : List (List ℕ)) (us : ℕ → ℕ → ℚ)
    (s0 : List Particle) (hxx : xmin ≤ xmax)
    (hu : ∀ i n, 0 ≤ us i n ∧ us i n ≤ 1)
    (hinit : pso_init_omp O fn dim N xmin xmax parts us = some s0) :
    InBounds xmin xmax s0 := by
  cases hmm : (List.range N).mapM
      (fun i => initParticle O fn dim xmin xmax (us i)) with
  | none =>
    have hnone : pso_init_omp O fn dim N xmin xmax parts us = none := by
      rw [pso_init_omp, hmm]
    rw [hnone] at hinit
    cases hinit
  | some ps =>
    have hsome : pso_init_omp O fn dim N xmin xmax parts us =
        some (broadcastG
          ((pso_get_best_fitness_omp (fitnessAt ps) parts).getD (-1)) ps) := by
      rw [pso_init_omp, hmm]
    have hs0 : s0 = broadcastG
        ((pso_get_best_fitness_omp (fitnessAt ps) parts).getD (-1)) ps :=
      Option.some.inj (hinit.symm.trans hsome)
    subst hs0
    apply broadcastG_InBounds
    intro p hp
    have hF2 := mapM_option_forall2
      (fun i => initParticle O fn dim xmin xmax (us i)) (List.range N) ps hmm
    obtain ⟨i, hi, hip⟩ := forall2_mem_right hF2 hp
    exact initParticle_bounds O fn dim xmin xmax (us i) p hxx (hu i) hip

/-- C4: for every run with `xmin < xmax`, after initialisation (`t = 0`) and
after every iteration of the main loop, every particle and every dimension
satisfy `xmin ≤ position[j] ≤ xmax` and
`-|xmax-xmin| ≤ velocity[j] ≤ |xmax-xmin|`; the hypotheses on the draw
streams state that every normalised `rand_r` draw lies in `[0, 1]`. -/
theorem bound_invariants (O : Objectives) (fn : String)
    (w c1 c2 xmin xmax : ℚ) (dim N : ℕ) (parts : List (List ℕ))
    (uss : ℕ → ℕ → ℕ → ℚ) (usinit : ℕ → ℕ → ℚ) (s0 : List Particle)
    (hxx : xmin < xmax)
    (hui : ∀ i n, 0 ≤ usinit i n ∧ usinit i n ≤ 1)
    (huu : ∀ t i n, 0 ≤ uss t i n ∧ uss t i n ≤ 1)
    (hinit : pso_init_omp O fn dim N xmin xmax parts usinit = some s0) :
    ∀ t, InBounds xmin xmax
      (pso_state O fn w c1 c2 xmin xmax parts uss s0 t).1 := by
  intro t
  cases t with
  | zero =>
    exact pso_init_omp_InBounds O fn dim N xmin xmax parts usinit s0 hxx.le
      hui hinit
  | succ t =>
    show InBounds xmin xmax
      (pso_iter O fn w c1 c2 xmin xmax parts (uss t)
        (pso_state O fn w c1 c2 xmin xmax parts uss s0 t).1).1
    exact broadcastG_InBounds xmin xmax _ _
      (updatePhase_InBounds O fn w c1 c2 xmin xmax (uss t) _ hxx.le (huu t))

/-- Witness for C4 at a concrete run, two iterations in. -/
theorem bound_invariants_witness :
    InBounds 0 10 (pso_state objC "booth" (79 / 100) (149 / 100) (149 / 100)
      0 10 [[0]] (fun _ _ _ => 1 / 2) [⟨[5, 5], [0, 0], [5, 5], 164, 0⟩] 2).1 :=
  bound_invariants objC "booth" (79 / 100) (149 / 100) (149 / 100) 0 10 2 1
    [[0]] (fun _ _ _ => 1 / 2) (fun _ _ => 1 / 2)
    [⟨[5, 5], [0, 0], [5, 5], 164, 0⟩] (by norm_num)
    (fun _ _ => by norm_num) (fun _ _ _ => by norm_num)
    (by norm_num [pso_init_omp, initParticle, pso_eval_fitness, uniform_omp,
      objC, boothQ, List.range_succ, pso_get_best_fitness_omp, localBest,
      localStep, mergeScan, minC, fitnessAt, broadcastG, dfltParticle,
      List.mapM.loop, Option.map, Option.getD]) 2

/-! ## Fitness monotonicity (C6) -/

theorem reducer_min_range (f : ℕ → ℚ) (N : ℕ) (parts : List (List ℕ))
    (hP : parts ≠ []) (hne : ∀ p ∈ parts, p ≠ [])
    (hcov : parts.join.Perm (List.range N)) :
    ∃ g : ℕ, pso_get_best_fitness_omp f parts = some (g : ℤ) ∧ g < N ∧
      ∀ i, i < N → f g ≤ f i := by
  obtain ⟨g, hg, hmem, hmin⟩ := reducer_attains_min f parts hP hne
  refine ⟨g, hg, List.mem_range.mp (hcov.mem_iff.mp hmem), ?_⟩
  intro i hi
  exact hmin i (hcov.mem_iff.mpr (List.mem_range.mpr hi))

theorem updateParticle_fitness_le (O : Objectives) (fn : String)
    (w c1 c2 xmin xmax : ℚ) (gx : List ℚ) (u : ℕ → ℚ) (p : Particle) :
    (updateParticle O fn w c1 c2 xmin xmax gx u p).fitness ≤ p.fitness := by
  simp only [updateParticle]
  by_cases hc : (pso_eval_fitness O fn
      (updDims w c1 c2 xmin xmax u p.x p.v p.pbest gx 0).1 0).2 < p.fitness
  · rw [if_pos hc]
    exact hc.le
  · rw [if_neg hc]

theorem updateParticle_exact (O : Objectives) (fn : String)
    (w c1 c2 xmin xmax : ℚ) (gx : List ℚ) (u : ℕ → ℚ) (p : Particle) :
    ((pso_eval_fitness O fn (updateParticle O fn w c1 c2 xmin xmax gx u p).x
        0).2 < p.fitness →
      (updateParticle O fn w c1 c2 xmin xmax gx u p).fitness =
          (pso_eval_fitness O fn
            (updateParticle O fn w c1 c2 xmin xmax gx u p).x 0).2 ∧
        (updateParticle O fn w c1 c2 xmin xmax gx u p).pbest =
          (updateParticle O fn w c1 c2 xmin xmax gx u p).x) ∧
    (¬(pso_eval_fitness O fn (updateParticle O fn w c1 c2 xmin xmax gx u p).x
        0).2 < p.fitness →
      (updateParticle O fn w c1 c2 xmin xmax gx u p).fitness = p.fitness ∧
        (updateParticle O fn w c1 c2 xmin xmax gx u p).pbest = p.pbest) := by
  simp only [updateParticle]
  by_cases hc : (pso_eval_fitness O fn
      (updDims w c1 c2 xmin xmax u p.x p.v p.pbest gx 0).1 0).2 < p.fitness
  · rw [if_pos hc]
    exact ⟨fun _ => ⟨rfl, rfl⟩, fun hn => absurd hc hn⟩
  · rw [if_neg hc]
    exact ⟨fun h => absurd h hc, fun _ => ⟨rfl, rfl⟩⟩

theorem getD_map_range {β : Type} (n : ℕ) (F : ℕ → β) (i : ℕ) (d : β)
    (hi : i < n) : ((List.range n).map F).getD i d = F i := by
  rw [List.getD_eq_getElem?_getD, List.getElem?_map, List.getElem?_range hi]
  rfl

theorem getD_ge_length {β : Type} (l : List β) (i : ℕ) (d : β)
    (hi : l.length ≤ i) : l.getD i d = d := by
  rw [List.getD_eq_getElem?_getD, List.getElem?_eq_none hi]
  rfl

theorem updatePhase_length (O : Objectives) (fn : String)
    (w c1 c2 xmin xmax : ℚ) (u : ℕ → ℕ → ℚ) (s : List Particle) :
    (updatePhase O fn w c1 c2 xmin xmax u s).length = s.length := by
  simp [updatePhase]

theorem broadcastG_length (g : ℤ) (s : List Particle) :
    (broadcastG g s).length = s.length := by
  simp [broadcastG]

theorem pso_state_length (O : Objectives) (fn : String)
    (w c1 c2 xmin xmax : ℚ) (parts : List (List ℕ)) (uss : ℕ → ℕ → ℕ → ℚ)
    (s0 : List Particle) :
    ∀ t, (pso_state O fn w c1 c2 xmin xmax parts uss s0 t).1.length =
      s0.length := by
  intro t
  induction t with
  | zero => rfl
  | succ t ih =>
    show (pso_iter O fn w c1 c2 xmin xmax parts (uss t)
      (pso_state O fn w c1 c2 xmin xmax parts uss s0 t).1).1.length = s0.length
    rw [show (pso_iter O fn w c1 c2 xmin xmax parts (uss t)
        (pso_state O fn w c1 c2 xmin xmax parts uss s0 t).1).1 =
      broadcastG ((pso_get_best_fitness_omp
          (fitnessAt (updatePhase O fn w c1 c2 xmin xmax (uss t)
            (pso_state O fn w c1 c2 xmin xmax parts uss s0 t).1)) parts).getD
          (-1))
        (updatePhase O fn w c1 c2 xmin xmax (uss t)
          (pso_state O fn w c1 c2 xmin xmax parts uss s0 t).1) from rfl]
    rw [broadcastG_length, updatePhase_length]
    exact ih

theorem broadcastG_fitnessAt (g : ℤ) (s : List Particle) (i : ℕ) :
    fitnessAt (broadcastG g s) i = fitnessAt s i := by
  unfold fitnessAt broadcastG
  rw [List.getD_eq_getElem?_getD, List.getD_eq_getElem?_getD,
    List.getElem?_map]
  cases s[i]? with
  | none => rfl
  | some p => rfl

theorem updatePhase_fitnessAt_le (O : Objectives) (fn : String)
    (w c1 c2 xmin xmax : ℚ) (u : ℕ → ℕ → ℚ) (s : List Particle) (i : ℕ) :
    fitnessAt (updatePhase O fn w c1 c2 xmin xmax u s) i ≤ fitnessAt s i := by
  rcases lt_or_le i s.length with hi | hi
  · unfold fitnessAt updatePhase
    rw [getD_map_range s.length _ i dfltParticle hi]
    exact updateParticle_fitness_le O fn w c1 c2 xmin xmax _ (u i)
      (s.getD i dfltParticle)
  · unfold fitnessAt
    rw [getD_ge_length _ i dfltParticle
        (by rw [updatePhase_length]; exact hi),
      getD_ge_length s i dfltParticle hi]

theorem pso_state_fitness_mono (O : Objectives) (fn : String)
    (w c1 c2 xmin xmax : ℚ) (parts : List (List ℕ)) (uss : ℕ → ℕ → ℕ → ℚ)
    (s0 : List Particle) (t i : ℕ) :
    fitnessAt (pso_state O fn w c1 c2 xmin xmax parts uss s0 (t + 1)).1 i ≤
      fitnessAt (pso_state O fn w c1 c2 xmin xmax parts uss s0 t).1 i := by
  show fitnessAt (pso_iter O fn w c1 c2 xmin xmax parts (uss t)
    (pso_state O fn w c1 c2 xmin xmax parts uss s0 t).1).1 i ≤ _
  exact le_trans (le_of_eq (broadcastG_fitnessAt _ _ i))
    (updatePhase_fitnessAt_le O fn w c1 c2 xmin xmax (uss t) _ i)

theorem pso_iter_snd (O : Objectives) (fn : String) (w c1 c2 xmin xmax : ℚ)
    (parts : List (List ℕ)) (u : ℕ → ℕ → ℚ) (s : List Particle) (N : ℕ)
    (hP : parts ≠ []) (hne : ∀ p ∈ parts, p ≠ [])
    (hcov : parts.join.Perm (List.range N)) :
    ∃ g : ℕ, (pso_iter O fn w c1 c2 xmin xmax parts u s).2 = (g : ℤ) ∧
      g < N ∧ ∀ i, i < N →
        fitnessAt (pso_iter O fn w c1 c2 xmin xmax parts u s).1 g ≤
          fitnessAt (pso_iter O fn w c1 c2 xmin xmax parts u s).1 i := by
  obtain ⟨g, hgeq, hglt, hgmin⟩ := reducer_min_range
    (fitnessAt (updatePhase O fn w c1 c2 xmin xmax u s)) N parts hP hne hcov
  refine ⟨g, ?_, hglt, ?_⟩
  · show (pso_get_best_fitness_omp
      (fitnessAt (updatePhase O fn w c1 c2 xmin xmax u s)) parts).getD (-1) =
        (g : ℤ)
    rw [hgeq]
    rfl
  · intro i hi
    have h1 : fitnessAt (pso_iter O fn w c1 c2 xmin xmax parts u s).1 g =
        fitnessAt (updatePhase O fn w c1 c2 xmin xmax u s) g :=
      broadcastG_fitnessAt _ _ g
    have h2 : fitnessAt (pso_iter O fn w c1 c2 xmin xmax parts u s).1 i =
        fitnessAt (updatePhase O fn w c1 c2 xmin xmax u s) i :=
      broadcastG_fitnessAt _ _ i
    rw [h1, h2]
    exact hgmin i hi

/-- C6: (i) each per-particle update step overwrites `fitness` and `pbest`
exactly when the newly evaluated fitness at the updated position is strictly
smaller than the stored fitness, leaves both unchanged otherwise, and never
increases the stored fitness; (ii) consequently every particle's stored
fitness is non-increasing from each iteration to the next; (iii) for every
iteration `t ≥ 1` the global-best indices are reduction outputs and the
fitness at the global-best index is non-increasing from iteration `t` to
`t + 1`. -/
theorem pbest_fitness_monotone (O : Objectives) (fn : String)
    (w c1 c2 xmin xmax : ℚ) (parts : List (List ℕ)) (uss : ℕ → ℕ → ℕ → ℚ)
    (s0 : List Particle) (N : ℕ) (hN : s0.length = N) (hP : parts ≠ [])
    (hne : ∀ p ∈ parts, p ≠ []) (hcov : parts.join.Perm (List.range N)) :
    (∀ (gx : List ℚ) (u : ℕ → ℚ) (p : Particle),
      ((pso_eval_fitness O fn
          (updateParticle O fn w c1 c2 xmin xmax gx u p).x 0).2 < p.fitness →
        (updateParticle O fn w c1 c2 xmin xmax gx u p).fitness =
            (pso_eval_fitness O fn
              (updateParticle O fn w c1 c2 xmin xmax gx u p).x 0).2 ∧
          (updateParticle O fn w c1 c2 xmin xmax gx u p).pbest =
            (updateParticle O fn w c1 c2 xmin xmax gx u p).x) ∧
      (¬(pso_eval_fitness O fn
          (updateParticle O fn w c1 c2 xmin xmax gx u p).x 0).2 < p.fitness →
        (updateParticle O fn w c1 c2 xmin xmax gx u p).fitness = p.fitness ∧
          (updateParticle O fn w c1 c2 xmin xmax gx u p).pbest = p.pbest) ∧
      (updateParticle O fn w c1 c2 xmin xmax gx u p).fitness ≤ p.fitness) ∧
    (∀ t i,
      fitnessAt (pso_state O fn w c1 c2 xmin xmax parts uss s0 (t + 1)).1 i ≤
        fitnessAt (pso_state O fn w c1 c2 xmin xmax parts uss s0 t).1 i) ∧
    (∀ t, 1 ≤ t → ∃ gt gt1 : ℕ,
      (pso_state O fn w c1 c2 xmin xmax parts uss s0 t).2 = (gt : ℤ) ∧
      (pso_state O fn w c1 c2 xmin xmax parts uss s0 (t + 1)).2 = (gt1 : ℤ) ∧
      gt < N ∧ gt1 < N ∧
      fitnessAt (pso_state O fn w c1 c2 xmin xmax parts uss s0 (t + 1)).1 gt1 ≤
        fitnessAt (pso_state O fn w c1 c2 xmin xmax parts uss s0 t).1 gt) := by
  refine ⟨?_, ?_, ?_⟩
  · intro gx u p
    exact ⟨(updateParticle_exact O fn w c1 c2 xmin xmax gx u p).1,
      (updateParticle_exact O fn w c1 c2 xmin xmax gx u p).2,
      updateParticle_fitness_le O fn w c1 c2 xmin xmax gx u p⟩
  · intro t i
    exact pso_state_fitness_mono O fn w c1 c2 xmin xmax parts uss s0 t i
  · intro t ht
    obtain ⟨t', rfl⟩ : ∃ t', t = t' + 1 := ⟨t - 1, by omega⟩
    obtain ⟨g1, hg1eq, hg1lt, hg1min⟩ := pso_iter_snd O fn w c1 c2 xmin xmax
      parts (uss t') (pso_state O fn w c1 c2 xmin xmax parts uss s0 t').1 N
      hP hne hcov
    obtain ⟨g2, hg2eq, hg2lt, hg2min⟩ := pso_iter_snd O fn w c1 c2 xmin xmax
      parts (uss (t' + 1))
      (pso_state O fn w c1 c2 xmin xmax parts uss s0 (t' + 1)).1 N hP hne hcov
    refine ⟨g1, g2, hg1eq, hg2eq, hg1lt, hg2lt, ?_⟩
    have hstep : fitnessAt
          (pso_state O fn w c1 c2 xmin xmax parts uss s0 (t' + 1 + 1)).1 g1 ≤
        fitnessAt (pso_state O fn w c1 c2 xmin xmax parts uss s0 (t' + 1)).1
          g1 :=
      pso_state_fitness_mono O fn w c1 c2 xmin xmax parts uss s0 (t' + 1) g1
    exact le_trans (hg2min g1 hg1lt) hstep

/-- Witness for C6 at a concrete configuration, comparing iterations 1 and 2. -/
theorem pbest_fitness_monotone_witness :
    fitnessAt (pso_state objC "booth" (79 / 100) (149 / 100) (149 / 100) 0 10
        [[0]] (fun _ _ _ => 1 / 2) [⟨[5, 5], [0, 0], [5, 5], 164, 0⟩] 1).1 0 ≤
      fitnessAt (pso_state objC "booth" (79 / 100) (149 / 100) (149 / 100) 0 10
        [[0]] (fun _ _ _ => 1 / 2) [⟨[5, 5], [0, 0], [5, 5], 164, 0⟩] 0).1 0 :=
  (pbest_fitness_monotone objC "booth" (79 / 100) (149 / 100) (149 / 100) 0 10
    [[0]] (fun _ _ _ => 1 / 2) [⟨[5, 5], [0, 0], [5, 5], 164, 0⟩] 1 rfl
    (by decide) (by intro p hp; fin_cases hp <;> decide) (by decide)).2.1 0 0

/-! ## C7: determinism fails on the code -/

set_option maxHeartbeats 2000000

/-- C7 (divergence evidence): the final state of `optimize_using_omp` is not a
function of the configuration `(function, dim, N, xmin, xmax, max_iter, P)`
alone — it also depends on the values drawn through the per-thread `rand_r`
seeds.  In the C code those seeds are indeterminate across runs: the base
value is `time(NULL)`, `optimize_using_omp` declares `seed` OpenMP-`private`
(so each thread reads an *uninitialised* copy each iteration), and
`pso_init_omp` races all threads on one shared `seed` variable.  Two runs of
the same binary with identical configuration therefore read different draw
values; here two such draw streams are shown to yield different trajectories,
refuting run-to-run determinism. -/
theorem trajectory_depends_on_indeterminate_seeds :
    optimize_using_omp objC "booth" 2 1 0 10 1 [[0]] (fun _ _ _ => 1 / 2)
        (fun _ _ => 1 / 2) ≠
      optimize_using_omp objC "booth" 2 1 0 10 1 [[0]] (fun _ _ _ => 1 / 2)
        (fun _ _ => 1 / 4) := by
  norm_num [optimize_using_omp, pso_init_omp, initParticle, pso_eval_fitness,
    uniform_omp, objC, boothQ, List.range_succ, pso_get_best_fitness_omp,
    localBest, localStep, mergeScan, minC, fitnessAt, broadcastG, dfltParticle,
    List.mapM.loop, Option.map, Option.getD, pso_state, pso_iter, updatePhase,
    updateParticle, updDims, updDim, Particle.mk.injEq]
